import Mathlib

/-!
Verification of the comfy-runpod job-execution layer.

This file gives a shallow embedding, in Lean 4, of the core algorithms of the
repository:

* the workflow dependency-graph resolver
  (src/test_workflow_trimming.py : get_node_dependencies, trim_workflow;
   src/custom_nodes/runpod-queue/__init__.py : calculate_node_depths),
* the process supervisor (src/docker/handler.py : start_comfyui_server,
  ensure_comfyui_running),
* the two job-execution polling loops (src/docker/handler.py :
  wait_for_completion; src/scripts/send-to-runpod.py : poll_status),
* the bounded output-log buffer (src/docker/handler.py :
  capture_comfyui_output, get_recent_comfyui_logs, create_error_response),
* the configuration surface (src/docker/config.py), and
* the request handler boundary (src/docker/handler.py : handler).

External effects (HTTP calls, process spawning, the file system, wall-clock
time) are modelled by explicit oracle arguments; wall-clock time is modelled
discretely, advancing by the duration of each sleep in the source.
-/

/-! ### Graph data model

A ComfyUI workflow is a JSON mapping from node-id (string) to a node with a
class_type and an inputs mapping.  An input value is either a literal or a
two-element list [source_node_id, output_index] referencing another node.
The mapping is modelled as an association list with first-match lookup
(Python dict keys are unique, so first-match equals dict lookup).
-/

/-- An input value of a node: a literal, or a reference
[source_node_id, output_index] (any list of length at least 2 is read as a
reference by the source, which takes element 0 as the node id). -/
inductive InVal where
  | lit (v : String) : InVal
  | ref (nid : String) (outIdx : Nat) : InVal
deriving DecidableEq, Repr

/-- A workflow node: class_type plus named inputs. -/
structure WNode where
  class_type : String
  inputs : List (String × InVal)
deriving DecidableEq, Repr

/-- A task graph: mapping from node-id to node, as an association list. -/
def TaskGraph : Type := List (String × WNode)

instance : DecidableEq TaskGraph := by
  unfold TaskGraph
  infer_instance

instance : Membership (String × WNode) TaskGraph := by
  unfold TaskGraph
  infer_instance

/-- Python dict .get: first-match lookup in the association list. -/
def glookup (G : TaskGraph) (n : String) : Option WNode :=
  match G with
  | [] => none
  | (k, v) :: rest => if k = n then some v else glookup rest n

/-- The keys of a graph (Python list(workflow.keys())). -/
def keys (G : TaskGraph) : List String :=
  G.map Prod.fst

/-- The node-ids referenced by a node's inputs: for each input value that is a
list of length at least 2, its element 0 (the source node id). -/
def refsOf (node : WNode) : List String :=
  node.inputs.filterMap fun p =>
    match p.2 with
    | .ref s _ => some s
    | .lit _ => none

/-- One dependency edge: node n exists in G and one of its inputs references
node d. -/
def DepStep (G : TaskGraph) (n d : String) : Prop :=
  ∃ node, glookup G n = some node ∧ d ∈ refsOf node

/-- n transitively depends on m (reflexively): the ancestor relation of the
spec, following InputRefs backward. -/
def Reaches (G : TaskGraph) (n m : String) : Prop :=
  Relation.ReflTransGen (DepStep G) n m

/-! ### The recursive dependency collector (get_node_dependencies)

The source performs a depth-first traversal with a visited set
(`dependencies`): a node is added before its inputs are visited, a node id
that does not exist in the graph is skipped silently.  The visited set is
modelled as a list; the subtype result carries the two invariants
(the visited set only grows, and only node-ids of the graph are added) that
make the termination measure work.
-/

/-- Invariant of a visit call: the visited set only grows and every added id
is a key of the graph. -/
def VisitInv (G : TaskGraph) (deps l : List String) : Prop :=
  deps ⊆ l ∧ ∀ x ∈ l, x ∈ deps ∨ x ∈ keys G

theorem keys_nil : keys ([] : TaskGraph) = [] := rfl

theorem keys_cons (p : String × WNode) (G : TaskGraph) :
    keys (p :: G) = p.1 :: keys G := rfl

theorem mem_keys_of_glookup {G : TaskGraph} {n : String} {node : WNode}
    (h : glookup G n = some node) : n ∈ keys G := by
  induction G with
  | nil => simp [glookup] at h
  | cons p rest ih =>
    rw [glookup] at h
    rw [keys_cons, List.mem_cons]
    by_cases hk : p.1 = n
    · exact Or.inl hk.symm
    · simp only [hk, if_false] at h
      exact Or.inr (ih h)

/-- The number of keys of G not yet in the visited set: the termination
measure of the traversal. -/
def unvisited (G : TaskGraph) (deps : List String) : Nat :=
  ((keys G).toFinset \ deps.toFinset).card

theorem unvisited_mono {G : TaskGraph} {deps deps' : List String}
    (h : deps ⊆ deps') : unvisited G deps' ≤ unvisited G deps := by
  apply Finset.card_le_card
  apply Finset.sdiff_subset_sdiff (Finset.Subset.refl _)
  intro x hx
  rw [List.mem_toFinset] at hx ⊢
  exact h hx

theorem unvisited_cons_lt {G : TaskGraph} {deps : List String} {n : String}
    (hk : n ∈ keys G) (hd : n ∉ deps) :
    unvisited G (n :: deps) < unvisited G deps := by
  apply Finset.card_lt_card
  constructor
  · apply Finset.sdiff_subset_sdiff (Finset.Subset.refl _)
    intro x hx
    rw [List.mem_toFinset] at hx ⊢
    exact List.mem_cons_of_mem _ hx
  · intro hsub
    have hn : n ∈ (keys G).toFinset \ deps.toFinset := by
      rw [Finset.mem_sdiff, List.mem_toFinset, List.mem_toFinset]
      exact ⟨hk, hd⟩
    have := hsub hn
    rw [Finset.mem_sdiff, List.mem_toFinset, List.mem_toFinset] at this
    exact this.2 (List.mem_cons_self _ _)

mutual

/-- visit_node of get_node_dependencies: if already visited, return; if the
node does not exist, return (skip silently); otherwise add the node to the
visited set and visit every referenced node. -/
def visit (G : TaskGraph) (nid : String) (deps : List String) :
    {l : List String // VisitInv G deps l} :=
  if h1 : nid ∈ deps then
    ⟨deps, List.Subset.refl _, fun x hx => Or.inl hx⟩
  else
    match h2 : glookup G nid with
    | none => ⟨deps, List.Subset.refl _, fun x hx => Or.inl hx⟩
    | some node =>
      let r := visitList G (refsOf node) (nid :: deps)
      ⟨r.val, by
        constructor
        · intro x hx
          exact r.property.1 (List.mem_cons_of_mem _ hx)
        · intro x hx
          rcases r.property.2 x hx with hx' | hx'
          · rcases List.mem_cons.mp hx' with rfl | hx''
            · exact Or.inr (mem_keys_of_glookup h2)
            · exact Or.inl hx''
          · exact Or.inr hx'⟩
  termination_by (unvisited G deps, 0)
  decreasing_by
    all_goals exact Prod.Lex.left _ _ (unvisited_cons_lt (mem_keys_of_glookup h2) h1)

/-- The loop over a node's input references inside visit_node. -/
def visitList (G : TaskGraph) (rs : List String) (deps : List String) :
    {l : List String // VisitInv G deps l} :=
  match rs with
  | [] => ⟨deps, List.Subset.refl _, fun x hx => Or.inl hx⟩
  | r :: rest =>
    match visit G r deps with
    | ⟨d1, hd1⟩ =>
      match visitList G rest d1 with
      | ⟨d2, hd2⟩ =>
        ⟨d2, by
          constructor
          · intro x hx
            exact hd2.1 (hd1.1 hx)
          · intro x hx
            rcases hd2.2 x hx with hx' | hx'
            · rcases hd1.2 x hx' with hx'' | hx''
              · exact Or.inl hx''
              · exact Or.inr hx''
            · exact Or.inr hx'⟩
  termination_by (unvisited G deps, rs.length + 1)
  decreasing_by
  · exact Prod.Lex.right _ (Nat.succ_pos _)
  · rcases Nat.lt_or_eq_of_le (unvisited_mono hd1.1) with h | h
    · exact Prod.Lex.left _ _ h
    · rw [h]
      exact Prod.Lex.right _ (by simp only [List.length_cons]; omega)

end

/-- get_node_dependencies: all nodes that target_node_id transitively depends
on (the target included), computed by the visited-set traversal. -/
def get_node_dependencies (G : TaskGraph) (target : String) : List String :=
  (visit G target []).val

/-- The union, over every target, of its dependency set
(`all_required_nodes` in trim_workflow; set union modelled by list append,
only membership matters). -/
def all_required_nodes (G : TaskGraph) (targets : List String) : List String :=
  targets.foldl (fun acc t => acc ++ get_node_dependencies G t) []

/-- trim_workflow: the sub-mapping of the graph restricted to the required
node set.  The source builds the dict by iterating the required set; since
that set only holds keys of the graph, the resulting mapping is the key-filter
of the original. -/
def trim_workflow (G : TaskGraph) (targets : List String) : TaskGraph :=
  G.filter fun p => decide (p.1 ∈ all_required_nodes G targets)

/-- The references of the node stored at a given id (empty when the id does
not exist in the graph). -/
def refsOfId (G : TaskGraph) (k : String) : List String :=
  match glookup G k with
  | some node => refsOf node
  | none => []

/-! ### Resolver lemmas -/

theorem glookup_eq_none_of_not_mem_keys {G : TaskGraph} {k : String}
    (h : k ∉ keys G) : glookup G k = none := by
  cases hg : glookup G k with
  | none => rfl
  | some node => exact absurd (mem_keys_of_glookup hg) h

theorem glookup_isSome_of_mem_keys {G : TaskGraph} {k : String}
    (h : k ∈ keys G) : ∃ node, glookup G k = some node := by
  cases hg : glookup G k with
  | none =>
    induction G with
    | nil => simp [keys] at h
    | cons p rest ih =>
      rw [keys_cons, List.mem_cons] at h
      rw [glookup] at hg
      rcases h with h | h
      · simp [h] at hg
      · by_cases hk : p.1 = k
        · simp [hk] at hg
        · simp only [hk, if_false] at hg
          exact ih h hg
  | some node => exact ⟨node, rfl⟩

theorem visit_val_visited {G : TaskGraph} {nid : String} {deps : List String}
    (h : nid ∈ deps) : (visit G nid deps).val = deps := by
  rw [visit]
  simp [h]

theorem visit_val_missing {G : TaskGraph} {nid : String} {deps : List String}
    (h1 : nid ∉ deps) (h2 : glookup G nid = none) :
    (visit G nid deps).val = deps := by
  rw [visit]
  rw [dif_neg h1]
  split
  · rfl
  · rename_i node heq
    rw [h2] at heq
    exact absurd heq (by simp)

theorem visit_val_found {G : TaskGraph} {nid : String} {deps : List String}
    {node : WNode} (h1 : nid ∉ deps) (h2 : glookup G nid = some node) :
    (visit G nid deps).val = (visitList G (refsOf node) (nid :: deps)).val := by
  rw [visit]
  rw [dif_neg h1]
  split
  · rename_i heq
    rw [h2] at heq
    exact absurd heq (by simp)
  · rename_i node' heq
    rw [h2] at heq
    cases heq
    rfl

theorem visitList_val_nil {G : TaskGraph} {deps : List String} :
    (visitList G [] deps).val = deps := by
  rw [visitList]

theorem visitList_val_cons {G : TaskGraph} {r : String} {rest deps : List String} :
    (visitList G (r :: rest) deps).val
      = (visitList G rest (visit G r deps).val).val := by
  rw [visitList]

theorem subset_visit {G : TaskGraph} {nid : String} {deps : List String} :
    deps ⊆ (visit G nid deps).val :=
  (visit G nid deps).property.1

theorem subset_visitList {G : TaskGraph} {rs deps : List String} :
    deps ⊆ (visitList G rs deps).val :=
  (visitList G rs deps).property.1

theorem mem_visit_self {G : TaskGraph} {nid : String} {deps : List String}
    (hk : nid ∈ keys G) : nid ∈ (visit G nid deps).val := by
  by_cases h1 : nid ∈ deps
  · exact subset_visit h1
  · obtain ⟨node, h2⟩ := glookup_isSome_of_mem_keys hk
    rw [visit_val_found h1 h2]
    exact subset_visitList (List.mem_cons_self _ _)

theorem mem_visitList {G : TaskGraph} {r : String} {rs deps : List String}
    (hr : r ∈ rs) (hk : r ∈ keys G) : r ∈ (visitList G rs deps).val := by
  induction rs generalizing deps with
  | nil => simp at hr
  | cons a rest ih =>
    rw [visitList_val_cons]
    rcases List.mem_cons.mp hr with rfl | hr'
    · exact subset_visitList (mem_visit_self hk)
    · exact ih hr'

theorem visit_sound_all (G : TaskGraph) :
    (∀ nid deps, ∀ x ∈ (visit G nid deps).val, x ∈ deps ∨ Reaches G nid x) ∧
    (∀ rs deps, ∀ x ∈ (visitList G rs deps).val,
      x ∈ deps ∨ ∃ r ∈ rs, Reaches G r x) := by
  refine visit.mutual_induct G
    (fun nid deps => ∀ x ∈ (visit G nid deps).val, x ∈ deps ∨ Reaches G nid x)
    (fun rs deps => ∀ x ∈ (visitList G rs deps).val,
      x ∈ deps ∨ ∃ r ∈ rs, Reaches G r x)
    ?_ ?_ ?_ ?_ ?_
  · intro nid deps h x hx
    rw [visit_val_visited h] at hx
    exact Or.inl hx
  · intro nid deps h1 h2 x hx
    rw [visit_val_missing h1 h2] at hx
    exact Or.inl hx
  · intro nid deps h1 node h2 ih _ x hx
    rw [visit_val_found h1 h2] at hx
    rcases ih x hx with hx' | ⟨r, hr, hrx⟩
    · rcases List.mem_cons.mp hx' with rfl | hx''
      · exact Or.inr Relation.ReflTransGen.refl
      · exact Or.inl hx''
    · exact Or.inr (Relation.ReflTransGen.head ⟨node, h2, hr⟩ hrx)
  · intro deps x hx
    rw [visitList_val_nil] at hx
    exact Or.inl hx
  · intro deps r rest d2 hd2 hv d21 hd21 hl ih1 ih2 x hx
    rw [visitList_val_cons, hv] at hx
    rcases ih2 x hx with hx' | ⟨r', hr', hrx⟩
    · rw [hv] at ih1
      rcases ih1 x hx' with h | h
      · exact Or.inl h
      · exact Or.inr ⟨r, List.mem_cons_self _ _, h⟩
    · exact Or.inr ⟨r', List.mem_cons_of_mem _ hr', hrx⟩

theorem visit_closed_all (G : TaskGraph) :
    (∀ nid deps, ∀ x ∈ (visit G nid deps).val, x ∉ deps →
      ∀ d ∈ refsOfId G x, d ∈ keys G → d ∈ (visit G nid deps).val) ∧
    (∀ rs deps, ∀ x ∈ (visitList G rs deps).val, x ∉ deps →
      ∀ d ∈ refsOfId G x, d ∈ keys G → d ∈ (visitList G rs deps).val) := by
  refine visit.mutual_induct G
    (fun nid deps => ∀ x ∈ (visit G nid deps).val, x ∉ deps →
      ∀ d ∈ refsOfId G x, d ∈ keys G → d ∈ (visit G nid deps).val)
    (fun rs deps => ∀ x ∈ (visitList G rs deps).val, x ∉ deps →
      ∀ d ∈ refsOfId G x, d ∈ keys G → d ∈ (visitList G rs deps).val)
    ?_ ?_ ?_ ?_ ?_
  · intro nid deps h x hx hnx
    rw [visit_val_visited h] at hx
    exact absurd hx hnx
  · intro nid deps h1 h2 x hx hnx
    rw [visit_val_missing h1 h2] at hx
    exact absurd hx hnx
  · intro nid deps h1 node h2 ih _ x hx hnx d hd hdk
    rw [visit_val_found h1 h2] at hx ⊢
    by_cases hxn : x = nid
    · subst hxn
      have hrefs : refsOfId G x = refsOf node := by
        rw [refsOfId, h2]
      rw [hrefs] at hd
      exact mem_visitList hd hdk
    · have hx' : x ∉ nid :: deps := by
        intro hc
        rcases List.mem_cons.mp hc with rfl | hc'
        · exact hxn rfl
        · exact hnx hc'
      exact ih x hx hx' d hd hdk
  · intro deps x hx hnx
    rw [visitList_val_nil] at hx
    exact absurd hx hnx
  · intro deps r rest d2 hd2 hv d21 hd21 hl ih1 ih2 x hx hnx d hd hdk
    rw [visitList_val_cons, hv] at hx ⊢
    by_cases hx2 : x ∈ d2
    · rw [hv] at ih1
      have := ih1 x hx2 hnx d hd hdk
      rw [hl] at *
      exact hd21.1 this
    · have := ih2 x hx hx2 d hd hdk
      exact this

theorem reaches_mem_of_closed {G : TaskGraph} {D : List String}
    (hD : ∀ y ∈ D, ∀ d ∈ refsOfId G y, d ∈ keys G → d ∈ D)
    {a m : String} (h : Reaches G a m) (hm : m ∈ keys G) (ha : a ∈ D) :
    m ∈ D := by
  induction h using Relation.ReflTransGen.head_induction_on with
  | refl => exact ha
  | head hstep htail ih =>
    rename_i x c
    obtain ⟨node, hlook, href⟩ := hstep
    have hck : c ∈ keys G := by
      rcases (Relation.ReflTransGen.cases_head htail) with rfl | ⟨z, hz, _⟩
      · exact hm
      · obtain ⟨node', hlook', _⟩ := hz
        exact mem_keys_of_glookup hlook'
    have hcd : c ∈ refsOfId G x := by
      rw [refsOfId, hlook]
      exact href
    exact ih (hD x ha c hcd hck)

/-- Characterization of get_node_dependencies: exactly the existing nodes the
target transitively depends on (the target included when it exists). -/
theorem mem_get_node_dependencies {G : TaskGraph} {t x : String} :
    x ∈ get_node_dependencies G t ↔ x ∈ keys G ∧ Reaches G t x := by
  constructor
  · intro hx
    rcases (visit G t []).property.2 x hx with h | h
    · simp at h
    · refine ⟨h, ?_⟩
      rcases (visit_sound_all G).1 t [] x hx with h' | h'
      · simp at h'
      · exact h'
  · rintro ⟨hk, hr⟩
    have hD := (visit_closed_all G).1 t []
    have hD' : ∀ y ∈ get_node_dependencies G t, ∀ d ∈ refsOfId G y,
        d ∈ keys G → d ∈ get_node_dependencies G t := by
      intro y hy d hd hdk
      exact hD y hy (by simp) d hd hdk
    have ht : t ∈ keys G := by
      rcases Relation.ReflTransGen.cases_head hr with rfl | ⟨z, hz, _⟩
      · exact hk
      · obtain ⟨node, hlook, _⟩ := hz
        exact mem_keys_of_glookup hlook
    exact reaches_mem_of_closed hD' hr hk (mem_visit_self ht)

/-- The dependency set is closed: every member has all its existing
references in the set. -/
theorem get_node_dependencies_closed {G : TaskGraph} {t : String} :
    ∀ y ∈ get_node_dependencies G t, ∀ d ∈ refsOfId G y,
      d ∈ keys G → d ∈ get_node_dependencies G t := by
  intro y hy d hd hdk
  exact (visit_closed_all G).1 t [] y hy (by simp) d hd hdk

theorem mem_foldl_append {α β : Type} (f : β → List α) (ts : List β)
    (init : List α) (x : α) :
    (x ∈ ts.foldl (fun acc t => acc ++ f t) init) ↔
      x ∈ init ∨ ∃ t ∈ ts, x ∈ f t := by
  induction ts generalizing init with
  | nil => simp
  | cons a rest ih =>
    rw [List.foldl_cons, ih]
    constructor
    · rintro (h | ⟨t, ht, hx⟩)
      · rcases List.mem_append.mp h with h' | h'
        · exact Or.inl h'
        · exact Or.inr ⟨a, List.mem_cons_self _ _, h'⟩
      · exact Or.inr ⟨t, List.mem_cons_of_mem _ ht, hx⟩
    · rintro (h | ⟨t, ht, hx⟩)
      · exact Or.inl (List.mem_append.mpr (Or.inl h))
      · rcases List.mem_cons.mp ht with rfl | ht'
        · exact Or.inl (List.mem_append.mpr (Or.inr hx))
        · exact Or.inr ⟨t, ht', hx⟩

/-- Characterization of the required-node union of trim_workflow. -/
theorem mem_all_required_nodes {G : TaskGraph} {ts : List String} {x : String} :
    x ∈ all_required_nodes G ts ↔
      ∃ t ∈ ts, x ∈ keys G ∧ Reaches G t x := by
  rw [all_required_nodes, mem_foldl_append]
  simp only [List.not_mem_nil, false_or]
  constructor
  · rintro ⟨t, ht, hx⟩
    exact ⟨t, ht, mem_get_node_dependencies.mp hx⟩
  · rintro ⟨t, ht, hx⟩
    exact ⟨t, ht, mem_get_node_dependencies.mpr hx⟩

theorem glookup_filter (G : TaskGraph) (q : String → Bool) (k : String) :
    glookup (G.filter fun p => q p.1) k
      = if q k then glookup G k else none := by
  induction G with
  | nil => simp [glookup]
  | cons p rest ih =>
    by_cases hq : q p.1
    · rw [show (List.filter (fun p => q p.1) (p :: rest))
          = p :: List.filter (fun p => q p.1) rest by simp [hq]]
      rw [glookup, glookup]
      by_cases hk : p.1 = k
      · subst hk
        simp [hq]
      · simp only [hk, if_false]
        exact ih
    · rw [show (List.filter (fun p => q p.1) (p :: rest))
          = List.filter (fun p => q p.1) rest by simp [hq]]
      rw [ih, glookup]
      by_cases hk : p.1 = k
      · subst hk
        simp [hq]
      · simp only [hk, if_false]

theorem mem_keys_iff_glookup {G : TaskGraph} {k : String} :
    k ∈ keys G ↔ ∃ node, glookup G k = some node := by
  constructor
  · exact glookup_isSome_of_mem_keys
  · rintro ⟨node, h⟩
    exact mem_keys_of_glookup h

theorem mem_keys_filter {G : TaskGraph} {q : String → Bool} {k : String} :
    k ∈ keys (G.filter fun p => q p.1) ↔ k ∈ keys G ∧ q k := by
  simp only [mem_keys_iff_glookup, glookup_filter]
  by_cases hq : q k
  · simp [hq]
  · simp [hq]

theorem glookup_trim (G : TaskGraph) (ts : List String) (k : String) :
    glookup (trim_workflow G ts) k
      = if k ∈ all_required_nodes G ts then glookup G k else none := by
  rw [trim_workflow,
    glookup_filter G (fun s => decide (s ∈ all_required_nodes G ts)) k]
  by_cases h : k ∈ all_required_nodes G ts <;> simp [h]

theorem mem_keys_trim {G : TaskGraph} {ts : List String} {k : String} :
    k ∈ keys (trim_workflow G ts)
      ↔ k ∈ keys G ∧ k ∈ all_required_nodes G ts := by
  simp only [mem_keys_iff_glookup, glookup_trim]
  by_cases h : k ∈ all_required_nodes G ts
  · simp [h]
  · simp [h]

theorem reaches_trim {G : TaskGraph} {ts : List String} {t k : String}
    (ht : t ∈ ts) (hr : Reaches G t k) :
    Reaches (trim_workflow G ts) t k := by
  induction hr with
  | refl => exact Relation.ReflTransGen.refl
  | tail hab hbc ih =>
    rename_i b c
    obtain ⟨node, hlook, href⟩ := hbc
    have hbA : b ∈ all_required_nodes G ts :=
      mem_all_required_nodes.mpr ⟨t, ht, mem_keys_of_glookup hlook, hab⟩
    have hlook' : glookup (trim_workflow G ts) b = some node := by
      rw [glookup_trim]
      simp [hbA, hlook]
    exact ih.tail ⟨node, hlook', href⟩

/-- C3: trim_workflow returns exactly the sub-mapping of the graph restricted
to the ancestor closure of the targets (each target plus everything it
transitively depends on, references to non-existent nodes ignored), and every
node kept in the trimmed graph has all of its existing InputRef dependencies
also present in the trimmed graph (dangling references in the original graph
are exempt via the d ∈ keys G hypothesis). -/
theorem C3_trim_workflow_ancestor_closure (G : TaskGraph) (ts : List String) :
    (∀ k v, glookup (trim_workflow G ts) k = some v ↔
      glookup G k = some v ∧ ∃ t ∈ ts, Reaches G t k) ∧
    (∀ k node, glookup (trim_workflow G ts) k = some node →
      ∀ d ∈ refsOf node, d ∈ keys G → d ∈ keys (trim_workflow G ts)) := by
  constructor
  · intro k v
    rw [glookup_trim]
    by_cases h : k ∈ all_required_nodes G ts
    · simp only [h, if_true]
      constructor
      · intro hv
        obtain ⟨t, ht, _, hr⟩ := mem_all_required_nodes.mp h
        exact ⟨hv, t, ht, hr⟩
      · exact fun hv => hv.1
    · simp only [h, if_false]
      constructor
      · intro hv
        cases hv
      · rintro ⟨hv, t, ht, hr⟩
        exact absurd
          (mem_all_required_nodes.mpr ⟨t, ht, mem_keys_of_glookup hv, hr⟩) h
  · intro k node hk d hd hdk
    rw [glookup_trim] at hk
    by_cases h : k ∈ all_required_nodes G ts
    · rw [if_pos h] at hk
      obtain ⟨t, ht, _, hr⟩ := mem_all_required_nodes.mp h
      have hrd : Reaches G t d := hr.tail ⟨node, hk, hd⟩
      exact mem_keys_trim.mpr
        ⟨hdk, mem_all_required_nodes.mpr ⟨t, ht, hdk, hrd⟩⟩
    · rw [if_neg h] at hk
      cases hk

/-- C5: the ancestor-closure computation of the resolver is idempotent
(as a set of node-ids), and trimming twice with the same targets returns the
same mapping as trimming once. -/
theorem C5_trim_idempotent (G : TaskGraph) (ts : List String) :
    (∀ x, x ∈ all_required_nodes G (all_required_nodes G ts)
        ↔ x ∈ all_required_nodes G ts) ∧
    trim_workflow (trim_workflow G ts) ts = trim_workflow G ts := by
  constructor
  · intro x
    constructor
    · intro hx
      obtain ⟨s, hs, hxk, hxr⟩ := mem_all_required_nodes.mp hx
      obtain ⟨t, ht, _, hsr⟩ := mem_all_required_nodes.mp hs
      exact mem_all_required_nodes.mpr ⟨t, ht, hxk, hsr.trans hxr⟩
    · intro hx
      obtain ⟨_, _, hxk, _⟩ := mem_all_required_nodes.mp hx
      exact mem_all_required_nodes.mpr ⟨x, hx, hxk, Relation.ReflTransGen.refl⟩
  · have hsub : ∀ k, k ∈ all_required_nodes G ts →
        k ∈ all_required_nodes (trim_workflow G ts) ts := by
      intro k hk
      obtain ⟨t, ht, hkk, hr⟩ := mem_all_required_nodes.mp hk
      exact mem_all_required_nodes.mpr
        ⟨t, ht, mem_keys_trim.mpr ⟨hkk, hk⟩, reaches_trim ht hr⟩
    show List.filter _ (List.filter _ G) = List.filter _ G
    rw [List.filter_filter]
    apply List.filter_congr
    intro a _
    by_cases h1 : a.1 ∈ all_required_nodes G ts
    · simp [h1, hsub a.1 h1]
    · simp [h1]

/-! ### Topological depth (calculate_node_depths)

The source computes, per node, 1 + the maximum depth of its referenced
nodes (0 for a missing reference), memoized in a dict that is filled by a
recursive helper and returned.  Unlike the dependency collector, the memo
entry is written only after the recursion over the inputs returns, so the
source does not terminate on a cyclic graph; the recursion is therefore
modelled with a fuel argument, set at the call sites to (number of keys + 1),
which is enough fuel for every acyclic graph (the longest dependency chain
of an acyclic graph is shorter than the number of keys).
-/

/-- The memo dict of calculate_node_depths (insertion at the front; a key is
inserted only when absent). -/
def memoLookup (m : List (String × Nat)) (k : String) : Option Nat :=
  match m with
  | [] => none
  | (a, v) :: rest => if a = k then some v else memoLookup rest k

/-- Memo-free unfolding of get_depth of calculate_node_depths: the value the
memoized recursion computes (memoization of a pure function does not change
values, which is proved below, not assumed). -/
def getDepthPure (G : TaskGraph) : Nat → String → Nat
  | 0, _ => 0
  | fuel + 1, nid =>
    match glookup G nid with
    | none => 0
    | some node =>
      (refsOf node).foldl (fun acc r => max acc (getDepthPure G fuel r)) 0 + 1

/-- get_depth of calculate_node_depths: memoized depth computation.  Returns
the depth of nid and the updated memo.  A nonexistent node contributes 0 and
is not memoized, exactly as in the source. -/
def get_depth (G : TaskGraph) : Nat → String → List (String × Nat) →
    Nat × List (String × Nat)
  | 0, _, m => (0, m)
  | fuel + 1, nid, m =>
    match memoLookup m nid with
    | some d => (d, m)
    | none =>
      match glookup G nid with
      | none => (0, m)
      | some node =>
        let st := (refsOf node).foldl
          (fun st r =>
            let q := get_depth G fuel r st.2
            (max st.1 q.1, q.2)) (0, m)
        (st.1 + 1, (nid, st.1 + 1) :: st.2)

/-- calculate_node_depths: fill the memo by computing the depth of every key
of the graph, and return the memo. -/
def calculate_node_depths (G : TaskGraph) : List (String × Nat) :=
  (keys G).foldl (fun m k => (get_depth G ((keys G).length + 1) k m).2) []

/-- The depth value of a node in graph G (the fuelled pure recursion at the
canonical fuel used by calculate_node_depths). -/
def depthValue (G : TaskGraph) (n : String) : Nat :=
  getDepthPure G ((keys G).length + 1) n

/-- Acyclicity of a task graph, expressed by a ranking certificate: a rank
function that strictly decreases along every dependency edge and is bounded
by the number of keys.  Every finite acyclic graph admits such a rank (the
length of the longest dependency path from a node: along any dependency path
the sources are distinct existing keys, so no path has more than
(keys G).length edges), and conversely a rank forbids any dependency cycle. -/
def Acyclic (G : TaskGraph) : Prop :=
  ∃ rank : String → Nat,
    (∀ n d, DepStep G n d → rank d < rank n) ∧
    ∀ n, rank n ≤ (keys G).length

theorem foldl_max_congr {f g : String → Nat} {l : List String}
    (h : ∀ r ∈ l, f r = g r) (a : Nat) :
    l.foldl (fun acc r => max acc (f r)) a
      = l.foldl (fun acc r => max acc (g r)) a := by
  induction l generalizing a with
  | nil => rfl
  | cons x rest ih =>
    rw [List.foldl_cons, List.foldl_cons, h x (List.mem_cons_self _ _)]
    exact ih (fun r hr => h r (List.mem_cons_of_mem _ hr)) _

theorem foldl_max_mono_init {f : String → Nat} {l : List String} {i j : Nat}
    (h : i ≤ j) :
    l.foldl (fun acc r => max acc (f r)) i ≤ l.foldl (fun acc r => max acc (f r)) j := by
  induction l generalizing i j with
  | nil => exact h
  | cons x rest ih =>
    rw [List.foldl_cons, List.foldl_cons]
    exact ih (max_le_max h (le_refl _))

theorem init_le_foldl_max {f : String → Nat} {l : List String} {i : Nat} :
    i ≤ l.foldl (fun acc r => max acc (f r)) i := by
  induction l generalizing i with
  | nil => exact le_refl _
  | cons x rest ih =>
    rw [List.foldl_cons]
    exact le_trans (le_max_left _ _) ih

theorem le_foldl_max_of_mem {f : String → Nat} {l : List String} {b : String}
    (hb : b ∈ l) : ∀ i, f b ≤ l.foldl (fun acc r => max acc (f r)) i := by
  induction l with
  | nil => simp at hb
  | cons x rest ih =>
    intro i
    rw [List.foldl_cons]
    rcases List.mem_cons.mp hb with rfl | hb'
    · exact le_trans (le_max_right _ _) init_le_foldl_max
    · exact ih hb' _

theorem getDepthPure_stable (G : TaskGraph) {rank : String → Nat}
    (hrank : ∀ n d, DepStep G n d → rank d < rank n) :
    ∀ R n f g, rank n = R → rank n < f → rank n < g →
      getDepthPure G f n = getDepthPure G g n := by
  intro R
  induction R using Nat.strong_induction_on with
  | _ R ih =>
    intro n f g hR hf hg
    match f, g with
    | f' + 1, g' + 1 =>
      cases hl : glookup G n with
      | none => simp only [getDepthPure, hl]
      | some node =>
        simp only [getDepthPure, hl]
        have : ∀ r ∈ refsOf node,
            getDepthPure G f' r = getDepthPure G g' r := by
          intro r hr
          have hdep : DepStep G n r := ⟨node, hl, hr⟩
          have hlt : rank r < R := hR ▸ hrank n r hdep
          have hfr : rank r < f' := by omega
          have hgr : rank r < g' := by omega
          exact ih (rank r) hlt r f' g' rfl hfr hgr
        rw [foldl_max_congr this]

/-- Invariant of the depth memo: every stored value is the node's depth, and
only existing nodes are stored. -/
def MemoGood (G : TaskGraph) (m : List (String × Nat)) : Prop :=
  (∀ k v, memoLookup m k = some v → v = depthValue G k) ∧
  (∀ k, memoLookup m k ≠ none → k ∈ keys G)

theorem get_depth_correct (G : TaskGraph) {rank : String → Nat}
    (hrank : ∀ n d, DepStep G n d → rank d < rank n)
    (hbound : ∀ n, rank n ≤ (keys G).length) :
    ∀ R n, rank n = R → ∀ fuel m, rank n < fuel → MemoGood G m →
      (get_depth G fuel n m).1 = depthValue G n ∧
      MemoGood G (get_depth G fuel n m).2 ∧
      (∀ k, memoLookup m k ≠ none →
        memoLookup (get_depth G fuel n m).2 k ≠ none) ∧
      (n ∈ keys G → memoLookup (get_depth G fuel n m).2 n ≠ none) := by
  intro R
  induction R using Nat.strong_induction_on with
  | _ R ih =>
    intro n hR fuel m hfuel hgood
    obtain ⟨f, rfl⟩ : ∃ f, fuel = f + 1 := ⟨fuel - 1, by omega⟩
    cases hm : memoLookup m n with
    | some d =>
      simp only [get_depth, hm]
      exact ⟨hgood.1 n d hm, hgood, fun k hk => hk, fun _ => by simp⟩
    | none =>
      cases hl : glookup G n with
      | none =>
        simp only [get_depth, hm, hl]
        refine ⟨?_, hgood, fun k hk => hk, ?_⟩
        · rw [depthValue]
          simp only [getDepthPure, hl]
        · intro hn
          obtain ⟨nd, h⟩ := glookup_isSome_of_mem_keys hn
          rw [hl] at h
          cases h
      | some node =>
        have hfold : ∀ rs : List String, (∀ r ∈ rs, rank r < rank n) → ∀ (a : Nat) m0,
            MemoGood G m0 →
            (∀ k, memoLookup m k ≠ none → memoLookup m0 k ≠ none) →
            (rs.foldl (fun st r =>
                let q := get_depth G f r st.2
                (max st.1 q.1, q.2)) (a, m0)).1
              = rs.foldl (fun acc r => max acc (depthValue G r)) a ∧
            MemoGood G (rs.foldl (fun st r =>
                let q := get_depth G f r st.2
                (max st.1 q.1, q.2)) (a, m0)).2 ∧
            (∀ k, memoLookup m k ≠ none →
              memoLookup (rs.foldl (fun st r =>
                let q := get_depth G f r st.2
                (max st.1 q.1, q.2)) (a, m0)).2 k ≠ none) := by
          intro rs
          induction rs with
          | nil =>
            intro _ a m0 hg hp
            exact ⟨rfl, hg, hp⟩
          | cons r rest ihr =>
            intro hranks a m0 hg hp
            have hrn : rank r < rank n := hranks r (List.mem_cons_self _ _)
            have hlt : rank r < R := hR ▸ hrn
            have hfr : rank r < f := by omega
            obtain ⟨hv, hg', hp', _⟩ := ih (rank r) hlt r rfl f m0 hfr hg
            have hrec := ihr (fun r' hr' => hranks r' (List.mem_cons_of_mem _ hr'))
              (max a (depthValue G r)) (get_depth G f r m0).2 hg'
              (fun k hk => hp' k (hp k hk))
            rw [List.foldl_cons, List.foldl_cons]
            dsimp only
            rw [hv]
            exact hrec
        obtain ⟨hv, hg', hp'⟩ := hfold (refsOf node)
          (fun r hr => hrank n r ⟨node, hl, hr⟩) 0 m hgood (fun k hk => hk)
        simp only [get_depth, hm, hl]
        refine ⟨?_, ⟨?_, ?_⟩, ?_, ?_⟩
        · show ((refsOf node).foldl (fun st r =>
              let q := get_depth G f r st.2
              (max st.1 q.1, q.2)) (0, m)).1 + 1 = depthValue G n
          rw [hv, depthValue]
          simp only [getDepthPure, hl]
          congr 1
          apply foldl_max_congr
          intro r hr
          have hrn : rank r < rank n := hrank n r ⟨node, hl, hr⟩
          have h1 : rank r < (keys G).length := lt_of_lt_of_le hrn (hbound n)
          exact getDepthPure_stable G hrank (rank r) r
            ((keys G).length + 1) (keys G).length rfl (by omega) h1
        · intro k v hk
          rw [memoLookup] at hk
          by_cases hkn : n = k
          · subst hkn
            simp only [if_pos rfl] at hk
            have hdn : ((refsOf node).foldl (fun st r =>
                let q := get_depth G f r st.2
                (max st.1 q.1, q.2)) (0, m)).1 + 1 = depthValue G n := by
              rw [hv, depthValue]
              simp only [getDepthPure, hl]
              congr 1
              apply foldl_max_congr
              intro r hr
              have hrn : rank r < rank n := hrank n r ⟨node, hl, hr⟩
              have h1 : rank r < (keys G).length := lt_of_lt_of_le hrn (hbound n)
              exact getDepthPure_stable G hrank (rank r) r
                ((keys G).length + 1) (keys G).length rfl (by omega) h1
            injection hk with hk'
            rw [← hk']
            exact hdn
          · simp only [hkn, if_false] at hk
            exact hg'.1 k v hk
        · intro k hk
          rw [memoLookup] at hk
          by_cases hkn : n = k
          · subst hkn
            exact mem_keys_of_glookup hl
          · simp only [hkn, if_false] at hk
            exact hg'.2 k hk
        · intro k hk
          rw [memoLookup]
          by_cases hkn : n = k
          · simp [hkn]
          · simp only [hkn, if_false]
            exact hp' k hk
        · intro _
          rw [memoLookup]
          simp

theorem memoGood_nil (G : TaskGraph) : MemoGood G [] := by
  constructor
  · intro k v hk
    rw [memoLookup] at hk
    cases hk
  · intro k hk
    rw [memoLookup] at hk
    exact absurd rfl hk

theorem calculate_node_depths_props (G : TaskGraph) (hA : Acyclic G) :
    MemoGood G (calculate_node_depths G) ∧
    ∀ n ∈ keys G, memoLookup (calculate_node_depths G) n ≠ none := by
  obtain ⟨rank, hrank, hbound⟩ := hA
  have hfold : ∀ ks : List String, ∀ m, MemoGood G m →
      MemoGood G (ks.foldl
        (fun m k => (get_depth G ((keys G).length + 1) k m).2) m) ∧
      (∀ k, memoLookup m k ≠ none →
        memoLookup (ks.foldl
          (fun m k => (get_depth G ((keys G).length + 1) k m).2) m) k ≠ none) ∧
      (∀ k ∈ ks, k ∈ keys G →
        memoLookup (ks.foldl
          (fun m k => (get_depth G ((keys G).length + 1) k m).2) m) k ≠ none) := by
    intro ks
    induction ks with
    | nil =>
      intro m hg
      exact ⟨hg, fun k hk => hk, by simp⟩
    | cons k rest ihk =>
      intro m hg
      have h1 := get_depth_correct G hrank hbound (rank k) k rfl
        ((keys G).length + 1) m (by have := hbound k; omega) hg
      obtain ⟨_, hg', hp', hkpres⟩ := h1
      have hrec := ihk (get_depth G ((keys G).length + 1) k m).2 hg'
      rw [List.foldl_cons]
      refine ⟨hrec.1, fun k' hk' => hrec.2.1 k' (hp' k' hk'), ?_⟩
      intro x hx hxk
      rcases List.mem_cons.mp hx with rfl | hx'
      · exact hrec.2.1 x (hkpres hxk)
      · exact hrec.2.2 x hx' hxk
  have h := hfold (keys G) [] (memoGood_nil G)
  rw [calculate_node_depths]
  exact ⟨h.1, fun n hn => h.2.2 n hn hn⟩

theorem calculate_node_depths_spec (G : TaskGraph) (hA : Acyclic G) :
    ∀ n ∈ keys G,
      memoLookup (calculate_node_depths G) n = some (depthValue G n) := by
  intro n hn
  obtain ⟨hgood, hall⟩ := calculate_node_depths_props G hA
  cases hm : memoLookup (calculate_node_depths G) n with
  | none => exact absurd hm (hall n hn)
  | some v => rw [hgood.1 n v hm]

theorem memoLookup_calc_none_of_not_mem (G : TaskGraph) (hA : Acyclic G)
    {r : String} (hr : r ∉ keys G) :
    memoLookup (calculate_node_depths G) r = none := by
  obtain ⟨hgood, _⟩ := calculate_node_depths_props G hA
  cases hm : memoLookup (calculate_node_depths G) r with
  | none => rfl
  | some v =>
    exact absurd (hgood.2 r (by rw [hm]; simp)) hr

/-- C4: on an acyclic graph, the mapping returned by calculate_node_depths
satisfies depth(n) = 1 + max(depth(dep) for dep in direct dependencies of n)
with max over the empty set equal to 0 and a reference to a non-existent node
contributing 0, so every node present in the graph has a depth of at least 1,
and depth(n) is strictly greater than depth(d) for every direct dependency d
of n that exists in the graph. -/
theorem C4_depth_recurrence (G : TaskGraph) (hA : Acyclic G) :
    ∀ n ∈ keys G, ∃ dn,
      memoLookup (calculate_node_depths G) n = some dn ∧
      dn = (refsOfId G n).foldl
        (fun a r => max a ((memoLookup (calculate_node_depths G) r).getD 0))
        0 + 1 ∧
      1 ≤ dn ∧
      ∀ d ∈ refsOfId G n, d ∈ keys G →
        ∃ dd, memoLookup (calculate_node_depths G) d = some dd ∧ dd < dn := by
  intro n hn
  have hspec := calculate_node_depths_spec G hA
  obtain ⟨rank, hrank, hbound⟩ := hA
  obtain ⟨node, hl⟩ := glookup_isSome_of_mem_keys hn
  have hrefs : refsOfId G n = refsOf node := by rw [refsOfId, hl]
  obtain ⟨L, hL⟩ : ∃ L, (keys G).length = L + 1 :=
    ⟨(keys G).length - 1, by
      have : 0 < (keys G).length := List.length_pos.mpr (by
        intro hemp
        rw [hemp] at hn
        simp at hn)
      omega⟩
  have hstable : ∀ r ∈ refsOf node,
      getDepthPure G (keys G).length r
        = (memoLookup (calculate_node_depths G) r).getD 0 := by
    intro r hr
    have hrn : rank r < rank n := hrank n r ⟨node, hl, hr⟩
    have hrL : rank r < (keys G).length := lt_of_lt_of_le hrn (hbound n)
    by_cases hrk : r ∈ keys G
    · rw [hspec r hrk, Option.getD_some]
      exact getDepthPure_stable G hrank (rank r) r
        (keys G).length ((keys G).length + 1) rfl hrL (by omega)
    · rw [memoLookup_calc_none_of_not_mem G ⟨rank, hrank, hbound⟩ hrk,
        Option.getD_none, hL]
      simp only [getDepthPure, glookup_eq_none_of_not_mem_keys hrk]
  have hdn : depthValue G n
      = (refsOf node).foldl
          (fun a r => max a (getDepthPure G (keys G).length r)) 0 + 1 := by
    rw [depthValue]
    simp only [getDepthPure, hl]
  refine ⟨depthValue G n, hspec n hn, ?_, ?_, ?_⟩
  · rw [hdn, hrefs]
    congr 1
    exact foldl_max_congr hstable 0
  · rw [hdn]
    omega
  · intro d hd hdk
    rw [hrefs] at hd
    refine ⟨depthValue G d, hspec d hdk, ?_⟩
    have hle : getDepthPure G (keys G).length d
        ≤ (refsOf node).foldl
            (fun a r => max a (getDepthPure G (keys G).length r)) 0 :=
      le_foldl_max_of_mem hd 0
    have heq : getDepthPure G (keys G).length d = depthValue G d := by
      have hrn : rank d < rank n := hrank n d ⟨node, hl, hd⟩
      have hrL : rank d < (keys G).length := lt_of_lt_of_le hrn (hbound n)
      exact getDepthPure_stable G hrank (rank d) d
        (keys G).length ((keys G).length + 1) rfl hrL (by omega)
    rw [hdn]
    omega

/-- The diamond example graph of the spec: node 1 with no dependencies,
nodes 2 and 3 depending on 1, node 4 depending on 2 and 3, node 5 depending
on 4. -/
def Gdiamond : TaskGraph := [
  ("1", ⟨"Loader", [("cfg", .lit "x")]⟩),
  ("2", ⟨"A", [("inp", .ref "1" 0)]⟩),
  ("3", ⟨"B", [("inp", .ref "1" 0)]⟩),
  ("4", ⟨"C", [("a", .ref "2" 0), ("b", .ref "3" 0)]⟩),
  ("5", ⟨"D", [("inp", .ref "4" 0)]⟩)]

/-- A ranking certificate for the diamond graph. -/
def rankD (s : String) : Nat :=
  if s = "1" then 1 else if s = "2" then 2 else if s = "3" then 2
  else if s = "4" then 3 else if s = "5" then 4 else 0

theorem acyclic_Gdiamond : Acyclic Gdiamond := by
  refine ⟨rankD, ?_, ?_⟩
  · intro n d hdep
    obtain ⟨node, hl, hr⟩ := hdep
    have hn : n ∈ keys Gdiamond := mem_keys_of_glookup hl
    have hn' : n = "1" ∨ n = "2" ∨ n = "3" ∨ n = "4" ∨ n = "5" := by
      simpa [Gdiamond, keys] using hn
    rcases hn' with rfl | rfl | rfl | rfl | rfl <;>
      (simp [Gdiamond, glookup] at hl; subst hl; simp [refsOf] at hr)
    · subst hr; decide
    · subst hr; decide
    · rcases hr with rfl | rfl <;> decide
    · subst hr; decide
  · intro n
    show rankD n ≤ (keys Gdiamond).length
    have h5 : (keys Gdiamond).length = 5 := by decide
    rw [h5, rankD]
    split_ifs <;> omega

/-- Witness for C4 at the diamond graph: node 5 has a depth of at least 1 and
its direct dependency 4 has a strictly smaller depth. -/
theorem C4_depth_recurrence_witness :
    ∃ dn, memoLookup (calculate_node_depths Gdiamond) "5" = some dn ∧
      1 ≤ dn ∧
      ∃ dd, memoLookup (calculate_node_depths Gdiamond) "4" = some dd ∧
        dd < dn := by
  obtain ⟨dn, h1, _, h3, h4⟩ :=
    C4_depth_recurrence Gdiamond acyclic_Gdiamond "5" (by decide)
  obtain ⟨dd, h5, h6⟩ := h4 "4" (by decide) (by decide)
  exact ⟨dn, h1, h3, dd, h5, h6⟩

/-! ### Process supervisor (start_comfyui_server / ensure_comfyui_running)

The global state of handler.py is the pair (comfyui_process, server_ready).
A process handle carries what Popen.poll() reports: none while the process is
alive, some exit code after it exited.  External effects of one start attempt
(whether Popen raises, the fresh handle, the readiness-probe outcome, and the
liveness probe of ensure_comfyui_running) are one oracle record. -/

/-- A subprocess handle: poll() reports none while alive, an exit code after
the process exited. -/
structure ProcHandle where
  pid : Nat
  exitCode : Option Int
deriving DecidableEq, Repr

/-- The supervisor's global state: the process handle (none when not started
or cleared) and the readiness flag. -/
structure SupState where
  comfyui_process : Option ProcHandle
  server_ready : Bool
deriving DecidableEq, Repr

/-- Oracle for one start attempt and one liveness probe. -/
structure StartEnv where
  spawnOk : Bool
  newHandle : ProcHandle
  healthOk : Bool
  probeOk : Bool
deriving DecidableEq, Repr

/-- start_comfyui_server: early-return true when a handle exists and the
server is marked ready; otherwise spawn (which may raise), run the readiness
probe, and on probe failure kill the process, clear the handle and return
false.  The exception path also clears the handle and resets readiness. -/
def start_comfyui_server (env : StartEnv) (s : SupState) : Bool × SupState :=
  if s.comfyui_process.isSome && s.server_ready then (true, s)
  else if env.spawnOk then
    if env.healthOk then
      (true, { comfyui_process := some env.newHandle, server_ready := true })
    else
      (false, { comfyui_process := none, server_ready := false })
  else
    (false, { comfyui_process := none, server_ready := false })

/-- ensure_comfyui_running: start when no handle exists; when the handle
reports an exit code, clear it, reset readiness and start again; otherwise
probe the server and on probe failure kill, clear, reset and start again. -/
def ensure_comfyui_running (env : StartEnv) (s : SupState) : Bool × SupState :=
  match s.comfyui_process with
  | none => start_comfyui_server env s
  | some p =>
    if p.exitCode.isSome then
      start_comfyui_server env { comfyui_process := none, server_ready := false }
    else if env.probeOk then (true, s)
    else
      start_comfyui_server env { comfyui_process := none, server_ready := false }

/-- C2: whenever the process handle exists but reports that the process has
exited, one call to ensure_comfyui_running clears the handle, resets
readiness and invokes start_comfyui_server again within the same call (the
call is equal to a fresh start from the cleared state), returns exactly the
resulting readiness flag, and succeeds within that single call whenever the
restart environment is healthy — no second external invocation is needed. -/
theorem C2_ensure_running_recovers_in_one_call (env : StartEnv) (s : SupState)
    (p : ProcHandle) (hp : s.comfyui_process = some p)
    (hexit : p.exitCode.isSome) :
    ensure_comfyui_running env s
      = start_comfyui_server env { comfyui_process := none, server_ready := false } ∧
    (ensure_comfyui_running env s).1
      = (ensure_comfyui_running env s).2.server_ready ∧
    (env.spawnOk = true → env.healthOk = true →
      ensure_comfyui_running env s
        = (true, { comfyui_process := some env.newHandle, server_ready := true })) := by
  have hmain : ensure_comfyui_running env s
      = start_comfyui_server env { comfyui_process := none, server_ready := false } := by
    rw [ensure_comfyui_running]
    rw [hp]
    simp [hexit]
  refine ⟨hmain, ?_, ?_⟩
  · rw [hmain, start_comfyui_server]
    by_cases hsp : env.spawnOk
    · by_cases hhl : env.healthOk
      · simp [hsp, hhl]
      · simp [hsp, hhl]
    · simp [hsp]
  · intro hsp hhl
    rw [hmain, start_comfyui_server]
    simp [hsp, hhl]

/-- Witness for C2: a crashed handle with a healthy restart environment
recovers to ready in the same call. -/
theorem C2_ensure_running_recovers_witness :
    ensure_comfyui_running
        ⟨true, ⟨1, none⟩, true, true⟩
        ⟨some ⟨0, some 1⟩, true⟩
      = (true, { comfyui_process := some ⟨1, none⟩, server_ready := true }) :=
  (C2_ensure_running_recovers_in_one_call
      ⟨true, ⟨1, none⟩, true, true⟩ ⟨some ⟨0, some 1⟩, true⟩
      ⟨0, some 1⟩ rfl (by decide)).2.2 rfl rfl

/-! ### Local job polling loop (wait_for_completion)

Wall-clock time is discrete: elapsed seconds since submission.  Each loop
iteration takes the 2-second sleep of the source; the status response and the
health probe at a given elapsed time are oracles.  The source raises on a
failed health probe (engine unresponsive), on an error status, and on
timeout; these exits are distinct result constructors here. -/

/-- One status poll of the /history endpoint: the job completed, the job
status is "error", or anything else (id absent, not completed, or a request
exception) which the loop treats as still pending. -/
inductive LocalPoll where
  | completed : LocalPoll
  | errorStatus : LocalPoll
  | pending : LocalPoll
deriving DecidableEq, Repr

/-- Result of wait_for_completion, tagged with the elapsed time at exit. -/
inductive WaitResult where
  | success (t : Nat) : WaitResult
  | execError (t : Nat) : WaitResult
  | unresponsive (t : Nat) : WaitResult
  | timedOut (t : Nat) : WaitResult
deriving DecidableEq, Repr

/-- The polling loop of wait_for_completion: while elapsed < timeout, run the
health probe when due (aborting if it fails, otherwise resetting the probe
clock only), then check the job status, then sleep 2 seconds. -/
def wait_loop (health : Nat → Bool) (poll : Nat → LocalPoll)
    (timeout hcI : Nat) (elapsed lastHC : Nat) : WaitResult :=
  if h : elapsed < timeout then
    if decide (elapsed - lastHC > hcI) && !(health elapsed) then
      .unresponsive elapsed
    else
      match poll elapsed with
      | .completed => .success elapsed
      | .errorStatus => .execError elapsed
      | .pending =>
        wait_loop health poll timeout hcI (elapsed + 2)
          (if elapsed - lastHC > hcI then elapsed else lastHC)
  else .timedOut elapsed
  termination_by timeout - elapsed
  decreasing_by omega

/-- wait_for_completion: the loop started at submission time, with the
health-probe clock also starting at submission. -/
def wait_for_completion (health : Nat → Bool) (poll : Nat → LocalPoll)
    (timeout hcI : Nat) : WaitResult :=
  wait_loop health poll timeout hcI 0 0

theorem wait_loop_always_pending (timeout hcI : Nat)
    (health : Nat → Bool) (poll : Nat → LocalPoll)
    (hh : ∀ t, health t = true) (hp : ∀ t, poll t = .pending) :
    ∀ gas elapsed lastHC, timeout - elapsed ≤ gas → elapsed < timeout + 2 →
      ∃ e, wait_loop health poll timeout hcI elapsed lastHC = .timedOut e ∧
        timeout ≤ e ∧ e < timeout + 2 := by
  intro gas
  induction gas with
  | zero =>
    intro elapsed lastHC hgas hlt
    have hnot : ¬ elapsed < timeout := by omega
    rw [wait_loop, dif_neg hnot]
    exact ⟨elapsed, rfl, by omega, hlt⟩
  | succ g ih =>
    intro elapsed lastHC hgas hlt
    by_cases hc : elapsed < timeout
    · rw [wait_loop, dif_pos hc]
      rw [hh elapsed, hp elapsed]
      simp only [Bool.not_true, Bool.and_false, Bool.false_eq_true, if_false]
      exact ih (elapsed + 2) _ (by omega) (by omega)
    · rw [wait_loop, dif_neg hc]
      exact ⟨elapsed, rfl, by omega, hlt⟩

theorem wait_loop_unresponsive_inv (timeout hcI : Nat)
    (health : Nat → Bool) (poll : Nat → LocalPoll) :
    ∀ gas elapsed lastHC t, timeout - elapsed ≤ gas →
      wait_loop health poll timeout hcI elapsed lastHC = .unresponsive t →
      health t = false ∧ t < timeout := by
  intro gas
  induction gas with
  | zero =>
    intro elapsed lastHC t hgas hres
    have hnot : ¬ elapsed < timeout := by omega
    rw [wait_loop, dif_neg hnot] at hres
    cases hres
  | succ g ih =>
    intro elapsed lastHC t hgas hres
    by_cases hc : elapsed < timeout
    · rw [wait_loop, dif_pos hc] at hres
      by_cases hb : (decide (elapsed - lastHC > hcI) && !(health elapsed)) = true
      · rw [if_pos hb] at hres
        cases hres
        have hnh : health elapsed = false := by
          cases hhe : health elapsed
          · rfl
          · rw [hhe] at hb
            simp at hb
        exact ⟨hnh, hc⟩
      · rw [if_neg hb] at hres
        cases hpoll : poll elapsed with
        | completed => rw [hpoll] at hres; cases hres
        | errorStatus => rw [hpoll] at hres; cases hres
        | pending =>
          rw [hpoll] at hres
          exact ih (elapsed + 2) _ t (by omega) hres
    · rw [wait_loop, dif_neg hc] at hres
      cases hres

/-! ### Remote queue polling loop (poll_status of send-to-runpod.py)

The loop checks elapsed > timeout before each request, then reads the job
status: COMPLETED/FAILED/CANCELLED are terminal, IN_QUEUE/IN_PROGRESS and
unknown statuses sleep poll_interval and continue, a request timeout also
sleeps and continues, a non-200 response or another exception aborts.  The
positivity proof argument mirrors time.sleep(poll_interval) actually
advancing the clock. -/

/-- One status response of the remote queue endpoint. -/
inductive RemoteResp where
  | completed : RemoteResp
  | failed : RemoteResp
  | cancelled : RemoteResp
  | inQueue : RemoteResp
  | inProgress : RemoteResp
  | unknown (s : String) : RemoteResp
  | httpError (code : Nat) : RemoteResp
  | reqTimeout : RemoteResp
  | otherError : RemoteResp
deriving DecidableEq, Repr

/-- Result of poll_status, tagged with the elapsed time at exit.  The source
returns the result data on COMPLETED and None otherwise; the reason for the
None is distinguished here, the timeout exit in particular. -/
inductive PollOutcome where
  | timedOutR (t : Nat) : PollOutcome
  | completedR (t : Nat) : PollOutcome
  | failedR (t : Nat) : PollOutcome
  | cancelledR (t : Nat) : PollOutcome
  | statusErrorR (t : Nat) : PollOutcome
  | errorR (t : Nat) : PollOutcome
deriving DecidableEq, Repr

/-- poll_status: poll the remote queue until a terminal status or until
elapsed exceeds the timeout. -/
def poll_status (resp : Nat → RemoteResp) (timeout interval : Nat)
    (hpos : 0 < interval) (elapsed : Nat) : PollOutcome :=
  if h : elapsed > timeout then .timedOutR elapsed
  else
    match resp elapsed with
    | .completed => .completedR elapsed
    | .failed => .failedR elapsed
    | .cancelled => .cancelledR elapsed
    | .inQueue => poll_status resp timeout interval hpos (elapsed + interval)
    | .inProgress => poll_status resp timeout interval hpos (elapsed + interval)
    | .unknown _ => poll_status resp timeout interval hpos (elapsed + interval)
    | .httpError _ => .statusErrorR elapsed
    | .reqTimeout => poll_status resp timeout interval hpos (elapsed + interval)
    | .otherError => .errorR elapsed
  termination_by timeout + 1 - elapsed
  decreasing_by all_goals omega

theorem poll_status_always_queued (timeout interval : Nat) (hpos : 0 < interval)
    (resp : Nat → RemoteResp)
    (hr : ∀ t, resp t = .inQueue ∨ resp t = .inProgress) :
    ∀ gas elapsed, timeout + 1 - elapsed ≤ gas → elapsed ≤ timeout + interval →
      ∃ e, poll_status resp timeout interval hpos elapsed = .timedOutR e ∧
        timeout < e ∧ e ≤ timeout + interval := by
  intro gas
  induction gas with
  | zero =>
    intro elapsed hgas hle
    have hgt : elapsed > timeout := by omega
    rw [poll_status, dif_pos hgt]
    exact ⟨elapsed, rfl, hgt, hle⟩
  | succ g ih =>
    intro elapsed hgas hle
    by_cases hgt : elapsed > timeout
    · rw [poll_status, dif_pos hgt]
      exact ⟨elapsed, rfl, hgt, hle⟩
    · rw [poll_status, dif_neg hgt]
      rcases hr elapsed with h | h <;> rw [h]
      · exact ih (elapsed + interval) (by omega) (by omega)
      · exact ih (elapsed + interval) (by omega) (by omega)

/-- C1: when status polling never reports a terminal status (the transport
always answers queued/running) and, locally, the engine stays healthy, both
polling loops terminate and return the timed-out result at approximately the
timeout measured from submission: the local loop (2-second sleep) exits at
an elapsed time in [timeout, timeout + 2), the remote loop at an elapsed
time in (timeout, timeout + pollInterval]. -/
theorem C1_polling_returns_timed_out (timeout hcI interval : Nat)
    (hpos : 0 < interval) (health : Nat → Bool) (poll : Nat → LocalPoll)
    (resp : Nat → RemoteResp)
    (hh : ∀ t, health t = true) (hp : ∀ t, poll t = .pending)
    (hr : ∀ t, resp t = .inQueue ∨ resp t = .inProgress) :
    (∃ e, wait_for_completion health poll timeout hcI = .timedOut e ∧
      timeout ≤ e ∧ e < timeout + 2) ∧
    (∃ e, poll_status resp timeout interval hpos 0 = .timedOutR e ∧
      timeout < e ∧ e ≤ timeout + interval) := by
  constructor
  · exact wait_loop_always_pending timeout hcI health poll hh hp
      (timeout - 0) 0 0 (le_refl _) (by omega)
  · exact poll_status_always_queued timeout interval hpos resp hr
      (timeout + 1) 0 (by omega) (by omega)

/-- Witness for C1: with timeout 5 and always-running transports, the local
loop times out at elapsed 6 seconds at most (within [5, 7)) and the remote
loop with pollInterval 1 within (5, 6]. -/
theorem C1_polling_returns_timed_out_witness :
    (∃ e, wait_for_completion (fun _ => true) (fun _ => LocalPoll.pending) 5 5
        = .timedOut e ∧ 5 ≤ e ∧ e < 7) ∧
    (∃ e, poll_status (fun _ => RemoteResp.inQueue) 5 1 Nat.one_pos 0
        = .timedOutR e ∧ 5 < e ∧ e ≤ 6) :=
  C1_polling_returns_timed_out 5 5 1 Nat.one_pos
    (fun _ => true) (fun _ => LocalPoll.pending) (fun _ => RemoteResp.inQueue)
    (fun _ => rfl) (fun _ => rfl) (fun _ => Or.inl rfl)

/-- C6: in the local polling loop, an engine-unresponsive exit happens only
at a time when the liveness probe was due, invoked and failed, strictly
before the timeout; a failing probe aborts the loop at the first due check
(elapsed 2 with the probe clock started at submission and interval below 2)
instead of polling until timeout; and an always-healthy probe does not reset
the timeout clock measured from submission: the loop still times out within
[timeout, timeout + 2). -/
theorem C6_health_check_aborts (timeout hcI : Nat) (health : Nat → Bool)
    (poll : Nat → LocalPoll) :
    (∀ t, wait_for_completion health poll timeout hcI = .unresponsive t →
      health t = false ∧ t < timeout) ∧
    ((∀ t, health t = true) → (∀ t, poll t = .pending) →
      ∃ e, wait_for_completion health poll timeout hcI = .timedOut e ∧
        timeout ≤ e ∧ e < timeout + 2) ∧
    (hcI < 2 → 2 < timeout → (∀ t, health t = false) →
      (∀ t, poll t = .pending) →
      wait_for_completion health poll timeout hcI = .unresponsive 2) := by
  refine ⟨?_, ?_, ?_⟩
  · intro t hres
    exact wait_loop_unresponsive_inv timeout hcI health poll
      (timeout - 0) 0 0 t (le_refl _) hres
  · intro hh hp
    exact wait_loop_always_pending timeout hcI health poll hh hp
      (timeout - 0) 0 0 (le_refl _) (by omega)
  · intro hcI2 htime hh hp
    have c1 : ¬ ((0:Nat) - 0 > hcI) := by omega
    rw [wait_for_completion, wait_loop, dif_pos (by omega : (0:Nat) < timeout),
      hp 0]
    have hcond1 : (decide ((0:Nat) - 0 > hcI) && !(health 0)) = false := by
      rw [decide_eq_false c1, Bool.false_and]
    rw [if_neg (by rw [hcond1]; exact Bool.false_ne_true)]
    show wait_loop health poll timeout hcI (0 + 2)
        (if (0:Nat) - 0 > hcI then 0 else 0) = .unresponsive 2
    rw [if_neg c1]
    rw [wait_loop, dif_pos (by omega : (0 + 2:Nat) < timeout)]
    have hcond2 : (decide ((0 + 2:Nat) - 0 > hcI) && !(health (0 + 2))) = true := by
      rw [hh, decide_eq_true (by omega : (0 + 2:Nat) - 0 > hcI)]
      rfl
    rw [if_pos hcond2]

/-- Witness for C6: with interval 1, timeout 10 and a probe that always
fails, the loop aborts unresponsive at elapsed 2 (the first due check),
instead of polling until the timeout. -/
theorem C6_health_check_aborts_witness :
    wait_for_completion (fun _ => false) (fun _ => LocalPoll.pending) 10 1
      = .unresponsive 2 :=
  (C6_health_check_aborts 10 1 (fun _ => false) (fun _ => LocalPoll.pending)).2.2
    (by omega) (by omega) (fun _ => rfl) (fun _ => rfl)

/-! ### Bounded output buffer (capture_comfyui_output / get_recent_comfyui_logs)

comfyui_output_queue is a Queue(maxsize=1000), modelled as a list with the
OLDEST element at the head (FIFO: put_nowait appends at the tail, get_nowait
removes the head).  The capture thread appends each decoded line with
put_nowait; on Full it removes one element with get_nowait and retries the
put, ignoring any failure. -/

/-- Queue.put_nowait: append at the tail, or fail (None) when full. -/
def put_nowait (cap : Nat) (q : List String) (l : String) :
    Option (List String) :=
  if q.length < cap then some (q ++ [l]) else none

/-- Queue.get_nowait: remove and return the head (oldest), or fail when
empty. -/
def get_nowait (q : List String) : Option (String × List String) :=
  match q with
  | [] => none
  | x :: rest => some (x, rest)

/-- The per-line body of the capture thread: put_nowait; on Full, drop the
oldest element and retry the put, ignoring failure of either step. -/
def capture_line (q : List String) (l : String) : List String :=
  match put_nowait 1000 q l with
  | some q1 => q1
  | none =>
    match get_nowait q with
    | some (_, q2) => (put_nowait 1000 q2 l).getD q2
    | none => q

/-- C8: the capture buffer is bounded at a fixed capacity of 1000 lines, as
an invariant preserved by every write: when the buffer is not full the line
is appended, when it is full the single oldest line is dropped and the line
is then appended, and the buffer never exceeds 1000 entries (the writer, a
total function here, neither raises nor blocks). -/
theorem C8_capture_buffer_bounded (q : List String) (l : String)
    (hq : q.length ≤ 1000) :
    (capture_line q l).length ≤ 1000 ∧
    (q.length < 1000 → capture_line q l = q ++ [l]) ∧
    (q.length = 1000 → capture_line q l = q.tail ++ [l]) := by
  by_cases hlt : q.length < 1000
  · have hcap : capture_line q l = q ++ [l] := by
      rw [capture_line, put_nowait, if_pos hlt]
    refine ⟨?_, fun _ => hcap, fun heq => absurd heq (by omega)⟩
    rw [hcap]
    simp only [List.length_append, List.length_cons, List.length_nil]
    omega
  · have heq : q.length = 1000 := by omega
    cases q with
    | nil => simp at heq
    | cons x rest =>
      have hrest : rest.length < 1000 := by
        simp only [List.length_cons] at heq
        omega
      have hput1 : put_nowait 1000 (x :: rest) l = none := by
        rw [put_nowait, if_neg hlt]
      have hput2 : put_nowait 1000 rest l = some (rest ++ [l]) := by
        rw [put_nowait, if_pos hrest]
      have hcap : capture_line (x :: rest) l = rest ++ [l] := by
        rw [capture_line, hput1]
        rw [show get_nowait (x :: rest) = some (x, rest) from rfl]
        dsimp only
        rw [hput2]
        rfl
      refine ⟨?_, fun hl => absurd hl hlt, fun _ => hcap⟩
      rw [hcap]
      simp only [List.length_append, List.length_cons, List.length_nil]
      simp only [List.length_cons] at heq
      omega

/-- Witness for C8: appending to a non-full buffer keeps the bound and
appends the line. -/
theorem C8_capture_buffer_bounded_witness :
    (capture_line ["a"] "b").length ≤ 1000 ∧
      capture_line ["a"] "b" = ["a", "b"] := by
  obtain ⟨h1, h2, _⟩ := C8_capture_buffer_bounded ["a"] "b" (by decide)
  exact ⟨h1, h2 (by decide)⟩

/-! ### Error-report log extraction (get_recent_comfyui_logs) -/

/-- The loop of get_recent_comfyui_logs: pop lines off the queue with
get_nowait until max_lines are collected or the queue is empty.  Returns the
collected lines and what remains in the queue (the pops are destructive in
the source). -/
def get_recent_loop (q logs : List String) (max_lines : Nat) :
    List String × List String :=
  if logs.length < max_lines then
    match q with
    | [] => (logs, [])
    | x :: rest => get_recent_loop rest (logs ++ [x]) max_lines
  else (logs, q)

/-- get_recent_comfyui_logs (the source's default max_lines is 50; the error
response call site passes 20). -/
def get_recent_comfyui_logs (q : List String) (max_lines : Nat) :
    List String × List String :=
  get_recent_loop q [] max_lines

/-- The error response record of create_error_response, restricted to the
fields the spec speaks about. -/
structure ErrorResponse where
  status : String
  error : String
  comfyui_running : Bool
  recent_logs : List String
deriving DecidableEq, Repr

/-- create_error_response: status "error", the message, and a system_state
holding 20 lines obtained from the output queue.  The queue lines are
consumed, so the updated queue is returned alongside. -/
def create_error_response (msg : String) (running : Bool)
    (q : List String) : ErrorResponse × List String :=
  ({ status := "error", error := msg, comfyui_running := running,
     recent_logs := (get_recent_comfyui_logs q 20).1 },
   (get_recent_comfyui_logs q 20).2)

theorem get_recent_loop_eq (max_lines : Nat) :
    ∀ (q logs : List String),
      get_recent_loop q logs max_lines
        = (logs ++ q.take (max_lines - logs.length),
           q.drop (max_lines - logs.length)) := by
  intro q
  induction q with
  | nil =>
    intro logs
    rw [get_recent_loop]
    by_cases hl : logs.length < max_lines
    · rw [if_pos hl]
      simp
    · rw [if_neg hl]
      have : max_lines - logs.length = 0 := by omega
      simp [this]
  | cons x rest ih =>
    intro logs
    rw [get_recent_loop]
    by_cases hl : logs.length < max_lines
    · rw [if_pos hl, ih]
      have hpos : max_lines - (logs ++ [x]).length
          = (max_lines - logs.length) - 1 := by
        simp only [List.length_append, List.length_cons, List.length_nil]
        omega
      obtain ⟨k, hk⟩ : ∃ k, max_lines - logs.length = k + 1 :=
        ⟨max_lines - logs.length - 1, by omega⟩
      rw [hpos, hk]
      simp only [Nat.add_sub_cancel, List.take_succ_cons, List.drop_succ_cons]
      simp
    · rw [if_neg hl]
      have : max_lines - logs.length = 0 := by omega
      simp [this]

/-- get_recent_comfyui_logs returns the max_lines OLDEST lines currently in
the queue (the queue is FIFO and get_nowait pops from the front) and removes
them from the queue. -/
theorem get_recent_comfyui_logs_eq (q : List String) (max_lines : Nat) :
    get_recent_comfyui_logs q max_lines = (q.take max_lines, q.drop max_lines) := by
  rw [get_recent_comfyui_logs, get_recent_loop_eq]
  simp

/-- A buffer of 21 captured lines, oldest first (l01 captured first, l21
captured last, none dropped since the capacity is 1000). -/
def q21 : List String :=
  ["l01", "l02", "l03", "l04", "l05", "l06", "l07",
   "l08", "l09", "l10", "l11", "l12", "l13", "l14",
   "l15", "l16", "l17", "l18", "l19", "l20", "l21"]

/-- Counterexample to C7 as stated: with 21 buffered lines, the error
response's recent_logs are NOT the 20 most recently captured lines (those
would be l02..l21, the last 20 of the buffer); get_nowait pops from the FIFO
front, so the response holds the 20 oldest lines l01..l20. -/
theorem C7_counterexample :
    (create_error_response "boom" false q21).1.recent_logs
      ≠ q21.drop (q21.length - 20) := by
  decide

/-- C7 amended: every error response produced by create_error_response has
status "error", carries the message, and includes in its system_state the 20
OLDEST currently-buffered lines of captured worker output (out of up to
max_lines = 50 retrievable by default), removing them from the buffer;
get_recent_comfyui_logs(max_lines) returns the max_lines oldest buffered
lines, not the most recent ones. -/
theorem C7_amended_recent_logs_are_oldest (msg : String) (running : Bool)
    (q : List String) :
    (create_error_response msg running q).1.status = "error" ∧
    (create_error_response msg running q).1.error = msg ∧
    (create_error_response msg running q).1.recent_logs = q.take 20 ∧
    (create_error_response msg running q).2 = q.drop 20 ∧
    (∀ max_lines q', get_recent_comfyui_logs q' max_lines
      = (q'.take max_lines, q'.drop max_lines)) := by
  refine ⟨rfl, rfl, ?_, ?_, fun max_lines q' => get_recent_comfyui_logs_eq q' max_lines⟩
  · show (get_recent_comfyui_logs q 20).1 = q.take 20
    rw [get_recent_comfyui_logs_eq]
  · show (get_recent_comfyui_logs q 20).2 = q.drop 20
    rw [get_recent_comfyui_logs_eq]

/-! ### Configuration surface (config.py)

The environment is an oracle from variable name to optional string;
os.getenv(k, d) takes the default when the variable is unset.  int() parsing
is modelled with String.toInt? (a failed parse raises in Python, which is the
none case of the constructor). -/

/-- str.lower() over the character list (kernel-computable). -/
def str_lower (s : String) : String := ⟨s.data.map Char.toLower⟩

/-- The digit-string value of int() (none when a character is not a digit or
the string is empty). -/
def digitsVal (cs : List Char) : Option Nat :=
  match cs with
  | [] => none
  | _ =>
    if cs.all (fun c => c.isDigit) then
      some (cs.foldl (fun a c => a * 10 + (c.toNat - 48)) 0)
    else none

/-- Python int() on the strings used by config.py: an optional minus sign
followed by digits; none models the ValueError raise. -/
def parseInt (s : String) : Option Int :=
  match s.data with
  | '-' :: rest => (digitsVal rest).map (fun n => -(n : Int))
  | l => (digitsVal l).map (fun n => (n : Int))

/-- The process environment. -/
structure EnvMap where
  vars : String → Option String

/-- os.getenv with a default. -/
def getenv (e : EnvMap) (k d : String) : String :=
  (e.vars k).getD d

/-- RunPodConfig: credential and endpoint for the remote transport. -/
structure RunPodConfigL where
  api_key : String
  endpoint_id : String
deriving DecidableEq, Repr

def mkRunPodConfig (e : EnvMap) : RunPodConfigL :=
  { api_key := getenv e "RUNPOD_API_KEY" "",
    endpoint_id := getenv e "RUNPOD_ENDPOINT_ID" "" }

/-- HandlerConfig: runtime settings of the handler. -/
structure HandlerConfigL where
  execution_timeout : Int
  health_check_interval : Int
  health_check_timeout : Int
  cleanup_age : Int
  return_base64 : Bool
  log_level : String
  log_comfyui_output : Bool
  comfyui_host : String
  comfyui_port : Nat
deriving DecidableEq, Repr

/-- HandlerConfig construction from the environment (none when an int()
parse would raise). -/
def mkHandlerConfig (e : EnvMap) : Option HandlerConfigL :=
  match parseInt (getenv e "EXECUTION_TIMEOUT" "300"),
      parseInt (getenv e "HEALTH_CHECK_INTERVAL" "5"),
      parseInt (getenv e "HEALTH_CHECK_TIMEOUT" "30"),
      parseInt (getenv e "CLEANUP_AGE" "3600") with
  | some et, some hci, some hct, some ca =>
    some { execution_timeout := et,
           health_check_interval := hci,
           health_check_timeout := hct,
           cleanup_age := ca,
           return_base64 :=
             str_lower (getenv e "RETURN_BASE64" "true") == "true",
           log_level := getenv e "LOG_LEVEL" "INFO",
           log_comfyui_output :=
             str_lower (getenv e "LOG_COMFYUI_OUTPUT" "true") == "true",
           comfyui_host := "0.0.0.0",
           comfyui_port := 8188 }
  | _, _, _, _ => none

/-- ProjectDefaults.validate: collect all violations, empty when valid. -/
def validate (r : RunPodConfigL) (h : HandlerConfigL) : List String :=
  (if r.api_key = "" then ["RUNPOD_API_KEY not set"] else []) ++
  (if r.endpoint_id = "" then ["RUNPOD_ENDPOINT_ID not set"] else []) ++
  (if h.execution_timeout < 30 then
    ["EXECUTION_TIMEOUT must be at least 30 seconds"] else []) ++
  (if h.health_check_timeout < 5 then
    ["HEALTH_CHECK_TIMEOUT must be at least 5 seconds"] else [])

/-- An environment with every recognized variable unset. -/
def emptyEnv : EnvMap := ⟨fun _ => none⟩

/-- C9: with no environment overrides the defaults are execution timeout
300 s, health-check interval 5 s, health-check timeout 30 s, output retention
age 3600 s and return-base64 true; and validate returns a non-empty error
list exactly when the API key or endpoint id is missing, the execution
timeout is below 30 seconds, or the health-check timeout is below 5 seconds
(and an empty list otherwise). -/
theorem C9_config_defaults_and_validate :
    mkHandlerConfig emptyEnv
      = some { execution_timeout := 300, health_check_interval := 5,
               health_check_timeout := 30, cleanup_age := 3600,
               return_base64 := true, log_level := "INFO",
               log_comfyui_output := true, comfyui_host := "0.0.0.0",
               comfyui_port := 8188 } ∧
    ∀ r h, validate r h ≠ [] ↔
      (r.api_key = "" ∨ r.endpoint_id = "" ∨
        h.execution_timeout < 30 ∨ h.health_check_timeout < 5) := by
  constructor
  · decide
  · intro r h
    by_cases h1 : r.api_key = "" <;>
      by_cases h2 : r.endpoint_id = "" <;>
        by_cases h3 : h.execution_timeout < 30 <;>
          by_cases h4 : h.health_check_timeout < 5 <;>
            simp [validate, h1, h2, h3, h4]

/-! ### Request handler boundary (handler)

The handler extracts the workflow from the event input, and only then starts
the engine, saves reference images, validates, queues and waits.  The stages
behind the missing-workflow check are driven by an oracle record and their
side effects are recorded in an effect trace, so that the early-exit path can
be stated as producing no effects at all. -/

/-- The parsed event input of a request. -/
structure HandlerInput where
  workflow : Option TaskGraph
  reference_images : List (String × String)
  return_base64 : Option Bool
deriving DecidableEq

/-- Side effects of the handler pipeline, in order of occurrence. -/
inductive HEffect where
  | ensureCalled : HEffect
  | savedImage (filename : String) : HEffect
  | validated : HEffect
  | queuedPrompt : HEffect
  | waitedForCompletion : HEffect
  | collectedImages : HEffect
  | cleanedOutputs : HEffect
deriving DecidableEq, Repr

/-- Oracle for the pipeline stages behind the missing-workflow check. -/
structure HandlerEnv where
  ensureOk : Bool
  validationErrors : List String
  promptId : String
  waitOutcome : WaitResult
  imageCount : Nat
deriving DecidableEq, Repr

/-- Handler response: structured success or error, never a bare exception. -/
inductive HResponse where
  | success (prompt_id : String) (image_count : Nat) : HResponse
  | error (msg : String) (recent_logs : List String) : HResponse
deriving DecidableEq, Repr

/-- The handler pipeline of handler.py: missing/empty workflow returns the
structured error immediately; otherwise ensure the engine runs, save the
reference images, validate, queue, wait for completion, collect and clean
up, turning every raised exception into a structured error response. -/
def handler (env : HandlerEnv) (q : List String) (input : HandlerInput) :
    HResponse × List HEffect :=
  match input.workflow with
  | none => (.error "Missing 'workflow' in input" (q.take 20), [])
  | some g =>
    if g = ([] : TaskGraph) then
      (.error "Missing 'workflow' in input" (q.take 20), [])
    else if env.ensureOk then
      let eff1 := HEffect.ensureCalled ::
        input.reference_images.map (fun p => HEffect.savedImage p.1)
      if env.validationErrors = [] then
        let eff2 := eff1 ++ [.validated, .queuedPrompt]
        match env.waitOutcome with
        | .success _ =>
          (.success env.promptId env.imageCount,
           eff2 ++ [.waitedForCompletion, .collectedImages, .cleanedOutputs])
        | .execError _ =>
          (.error "Workflow execution failed" (q.take 20),
           eff2 ++ [.waitedForCompletion])
        | .unresponsive _ =>
          (.error "ComfyUI became unresponsive during execution" (q.take 20),
           eff2 ++ [.waitedForCompletion])
        | .timedOut _ =>
          (.error "Workflow execution timeout" (q.take 20),
           eff2 ++ [.waitedForCompletion])
      else
        (.error "Workflow validation failed" (q.take 20), eff1 ++ [.validated])
    else
      (.error "Failed to start ComfyUI server" (q.take 20), [.ensureCalled])

/-- C10: for every request whose input lacks a workflow or whose workflow is
empty, the handler returns the structured error response with status error
and message Missing 'workflow' in input, and performs no effect at all: the
engine is neither started nor health-checked, no reference image is written,
nothing is validated or queued — the system state is unchanged. -/
theorem C10_missing_workflow_early_exit (env : HandlerEnv) (q : List String)
    (input : HandlerInput)
    (hw : input.workflow = none ∨ input.workflow = some ([] : TaskGraph)) :
    handler env q input
      = (.error "Missing 'workflow' in input" (q.take 20), []) := by
  rcases hw with hw | hw
  · rw [handler, hw]
  · rw [handler, hw]
    simp

/-- Witness for C10: a request with no workflow but with reference images
attached returns the missing-workflow error and an empty effect trace. -/
theorem C10_missing_workflow_early_exit_witness :
    handler ⟨true, [], "id42", .success 0, 0⟩ ["logline"]
        ⟨none, [("ref.png", "abc")], none⟩
      = (.error "Missing 'workflow' in input" ["logline"], []) :=
  C10_missing_workflow_early_exit ⟨true, [], "id42", .success 0, 0⟩
    ["logline"] ⟨none, [("ref.png", "abc")], none⟩ (Or.inl rfl)
